import Mathlib

/-!
# Verification of the gogit content-addressable storage core (src/main.go)

All Go strings and byte slices are modelled as `List Nat` (byte values).
`strBytes` turns an ASCII string literal into its byte list.
-/

namespace Gogit

/-- ASCII bytes of a string literal (all literals used here are ASCII). -/
def strBytes (s : String) : List Nat := s.data.map Char.toNat

/-! ## SHA-1 (crypto/sha1, used by `storeObject`), over byte lists -/

/-- Truncate to 32 bits. -/
def w32 (x : Nat) : Nat := x % 4294967296

/-- 32-bit left rotation. -/
def rotl (n x : Nat) : Nat := ((x <<< n) ||| (x >>> (32 - n))) % 4294967296

/-- SHA-1 round constants. -/
def sha1K (i : Nat) : Nat :=
  if i < 20 then 0x5A827999 else if i < 40 then 0x6ED9EBA1
  else if i < 60 then 0x8F1BBCDC else 0xCA62C1D6

/-- SHA-1 round functions (choose / parity / majority / parity). -/
def sha1F (i b c d : Nat) : Nat :=
  if i < 20 then (b &&& c) ||| ((b ^^^ 0xFFFFFFFF) &&& d)
  else if i < 40 then b ^^^ c ^^^ d
  else if i < 60 then (b &&& c) ||| (b &&& d) ||| (c &&& d)
  else b ^^^ c ^^^ d

/-- Extend the 16 block words by `k` further schedule words. -/
def sha1Expand (ws : List Nat) : Nat → List Nat
  | 0 => ws
  | k + 1 =>
    let n := ws.length
    sha1Expand
      (ws ++ [rotl 1 ((ws.getD (n - 3) 0 ^^^ ws.getD (n - 8) 0) ^^^
        (ws.getD (n - 14) 0 ^^^ ws.getD (n - 16) 0))]) k

/-- The 80 SHA-1 rounds over the schedule words. -/
def sha1Rounds : Nat → Nat × Nat × Nat × Nat × Nat → List Nat → Nat × Nat × Nat × Nat × Nat
  | _, st, [] => st
  | i, (a, b, c, d, e), w :: ws =>
    let t := w32 (rotl 5 a + sha1F i b c d + e + sha1K i + w)
    sha1Rounds (i + 1) (t, a, rotl 30 b, c, d) ws

/-- One SHA-1 block compression. -/
def sha1Compress (h : Nat × Nat × Nat × Nat × Nat) (block : List Nat) :
    Nat × Nat × Nat × Nat × Nat :=
  let (a, b, c, d, e) := sha1Rounds 0 h (sha1Expand block 64)
  (w32 (h.1 + a), w32 (h.2.1 + b), w32 (h.2.2.1 + c), w32 (h.2.2.2.1 + d), w32 (h.2.2.2.2 + e))

/-- Fold the compression over the 16-word blocks of the padded message. -/
def sha1Blocks (h : Nat × Nat × Nat × Nat × Nat) :
    List Nat → Nat × Nat × Nat × Nat × Nat
  | w0 :: w1 :: w2 :: w3 :: w4 :: w5 :: w6 :: w7 ::
    w8 :: w9 :: w10 :: w11 :: w12 :: w13 :: w14 :: w15 :: rest =>
    sha1Blocks (sha1Compress h
      [w0, w1, w2, w3, w4, w5, w6, w7, w8, w9, w10, w11, w12, w13, w14, w15]) rest
  | _ => h

/-- Big-endian bytes of a 32-bit value. -/
def u32beBytes (n : Nat) : List Nat :=
  [n / 16777216 % 256, n / 65536 % 256, n / 256 % 256, n % 256]

/-- Big-endian bytes of a 64-bit value. -/
def u64beBytes (n : Nat) : List Nat := u32beBytes (n / 4294967296) ++ u32beBytes n

/-- Group bytes into big-endian 32-bit words. -/
def bytesToWords : List Nat → List Nat
  | b0 :: b1 :: b2 :: b3 :: rest =>
    (b0 * 16777216 + b1 * 65536 + b2 * 256 + b3) :: bytesToWords rest
  | _ => []

/-- SHA-1 padding: 0x80, zeros to 56 mod 64, then the 64-bit bit length. -/
def sha1Pad (msg : List Nat) : List Nat :=
  msg ++ 128 :: (List.replicate ((119 - msg.length % 64) % 64) 0 ++ u64beBytes (8 * msg.length))

/-- SHA-1 initial state. -/
def sha1Init : Nat × Nat × Nat × Nat × Nat :=
  (0x67452301, 0xEFCDAB89, 0x98BADCFE, 0x10325476, 0xC3D2E1F0)

/-- SHA-1 digest (20 bytes) of a byte list. -/
def sha1 (msg : List Nat) : List Nat :=
  let h := sha1Blocks sha1Init (bytesToWords (sha1Pad msg))
  u32beBytes h.1 ++ u32beBytes h.2.1 ++ u32beBytes h.2.2.1 ++
    u32beBytes h.2.2.2.1 ++ u32beBytes h.2.2.2.2

/-! ## Hex encoding (encoding/hex) -/

/-- Lowercase hex digit for a nibble, as an ASCII byte. -/
def hexDigitChar (n : Nat) : Nat := if n < 10 then 48 + n else 87 + n

/-- `hex.EncodeToString`: two lowercase hex digits per byte. -/
def hexEncode : List Nat → List Nat
  | [] => []
  | b :: bs => hexDigitChar (b % 256 / 16) :: hexDigitChar (b % 16) :: hexEncode bs

/-- Value of an ASCII hex digit (`hex.DecodeString` accepts both cases). -/
def hexDigitVal (c : Nat) : Option Nat :=
  if 48 ≤ c ∧ c ≤ 57 then some (c - 48)
  else if 97 ≤ c ∧ c ≤ 102 then some (c - 87)
  else if 65 ≤ c ∧ c ≤ 70 then some (c - 55)
  else none

/-- `hex.DecodeString`: fails on odd length or an invalid digit. -/
def hexDecode : List Nat → Option (List Nat)
  | [] => some []
  | [_] => none
  | c1 :: c2 :: cs => do
    let h ← hexDigitVal c1
    let l ← hexDigitVal c2
    let rest ← hexDecode cs
    pure ((h * 16 + l) :: rest)

/-! ## Decimal rendering (fmt "%d" on a length) -/

def decBytesAux : Nat → Nat → List Nat → List Nat
  | 0, _, acc => acc
  | fuel + 1, n, acc =>
    if n < 10 then (48 + n) :: acc
    else decBytesAux fuel (n / 10) ((48 + n % 10) :: acc)

/-- ASCII decimal digits of a natural number. -/
def decBytes (n : Nat) : List Nat := decBytesAux (n + 1) n []

/-! ## `storeObject` (src/main.go:286-306): header, bytes and id -/

/-- The object header `"<kind> <len>\0"` built by `storeObject`. -/
def objectHeader (typeStr content : List Nat) : List Nat :=
  typeStr ++ 32 :: (decBytes content.length ++ [0])

/-- The full stored byte sequence `header ++ content`. -/
def objectBytes (typeStr content : List Nat) : List Nat :=
  objectHeader typeStr content ++ content

/-- The id returned by `storeObject`: lowercase hex of the SHA-1 of `objectBytes`. -/
def storeObjectId (typeStr content : List Nat) : List Nat :=
  hexEncode (sha1 (objectBytes typeStr content))

/-! ## Byte-level string utilities (strings.Split, strings.HasPrefix,
bytes.Buffer.ReadBytes, bytes.IndexByte) -/

/-- `strings.Split` with a one-byte separator; like Go's, the result is
never empty. -/
def splitByte (sep : Nat) : List Nat → List (List Nat)
  | [] => [[]]
  | b :: bs =>
    if b = sep then [] :: splitByte sep bs
    else
      match splitByte sep bs with
      | l :: ls => (b :: l) :: ls
      | [] => [[b]]

/-- `strings.Join` with a one-byte separator. -/
def joinByte (sep : Nat) : List (List Nat) → List Nat
  | [] => []
  | [l] => l
  | l :: ls => l ++ sep :: joinByte sep ls

/-- `strings.HasPrefix` on byte lists. -/
def startsWith : List Nat → List Nat → Bool
  | [], _ => true
  | _ :: _, [] => false
  | p :: ps, b :: bs => p == b && startsWith ps bs

/-- `bytes.Buffer.ReadBytes(0)`: the bytes before the first NUL and the rest
after it; `none` when no NUL remains (Go reports `io.EOF`). -/
def splitAtNul : List Nat → Option (List Nat × List Nat)
  | [] => none
  | b :: bs =>
    if b = 0 then some ([], bs)
    else
      match splitAtNul bs with
      | some (p, r) => some (b :: p, r)
      | none => none

/-- `content[bytes.IndexByte(content, 0)+1:]` as used by cmdLog and cmdLsTree:
everything after the first NUL, or the whole content when there is none
(IndexByte returns -1 and the slice starts at 0). -/
def payloadOf (content : List Nat) : List Nat :=
  match splitAtNul content with
  | some (_, r) => r
  | none => content

/-! ## Tree codec: cmdWriteTree (src/main.go:343-391) emits entries,
cmdLsTree (src/main.go:488-529) parses them back -/

/-- A tree entry: mode and name as ASCII bytes, child id as a hex string. -/
structure TreeEntry where
  mode : List Nat
  name : List Nat
  sha : List Nat
deriving DecidableEq, Repr

/-- One encoded entry: `"<mode> <name>\0"` then the 20 raw digest bytes
(cmdWriteTree decodes the hex id; a bad id is an error). -/
def treeEncodeEntry (e : TreeEntry) : Option (List Nat) :=
  (hexDecode e.sha).map fun shaBytes => e.mode ++ 32 :: (e.name ++ 0 :: shaBytes)

/-- The tree payload built by cmdWriteTree: entries concatenated in order. -/
def treeEncode : List TreeEntry → Option (List Nat)
  | [] => some []
  | e :: es => do
    let b ← treeEncodeEntry e
    let rest ← treeEncode es
    pure (b ++ rest)

/-- The ways the cmdLsTree loop aborts. -/
inductive TreeErr where
  /-- `ReadBytes(0)` found no NUL in the remaining buffer. -/
  | noNulTerminator
  /-- the header holds no space, so `parts[1]` is out of range. -/
  | missingName
deriving DecidableEq, Repr

/-- Result of parsing a tree payload. -/
inductive TreeResult where
  | ok : List TreeEntry → TreeResult
  | error : TreeErr → TreeResult
deriving DecidableEq, Repr

/-- The cmdLsTree loop (src/main.go:504-528). The 20-byte digest read is Go's
`buf.Read` into a zeroed slice: a short read keeps the zero padding and is not
an error. Each iteration consumes at least the NUL byte, so the byte count
bounds the iterations (the fuel). -/
def treeDecodeAux : Nat → List Nat → TreeResult
  | _, [] => .ok []
  | 0, _ :: _ => .ok []
  | fuel + 1, b :: bs =>
    match splitAtNul (b :: bs) with
    | none => .error .noNulTerminator
    | some (header, rest) =>
      match splitByte 32 header with
      | mo :: na :: _ =>
        let sha20 := rest.take 20
        let shaBytes := sha20 ++ List.replicate (20 - sha20.length) 0
        match treeDecodeAux fuel (rest.drop 20) with
        | .ok es => .ok (⟨mo, na, hexEncode shaBytes⟩ :: es)
        | .error e => .error e
      | _ => .error .missingName

/-- Parse a tree payload as cmdLsTree does. -/
def treeDecode (bs : List Nat) : TreeResult := treeDecodeAux bs.length bs

/-! ## Staging index: cmdAdd (src/main.go:147-183), readIndex (185-233),
writeIndex (235-258) -/

/-- An index entry (src/main.go:42-47). -/
structure IndexEntry where
  Mode : Nat
  Hash : List Nat
  PathLen : Nat
  Path : List Nat
deriving DecidableEq, Repr

/-- The in-memory update done by cmdAdd (src/main.go:163-180): replace the
first entry whose path matches, else append a new entry; both branches fix
`Mode = 0o100644`. A fresh entry leaves `PathLen` at Go's zero value. -/
def stage (p h : List Nat) : List IndexEntry → List IndexEntry
  | [] => [{ Mode := 0o100644, Hash := h, PathLen := 0, Path := p }]
  | e :: es =>
    if e.Path = p then { e with Hash := h, Mode := 0o100644 } :: es
    else e :: stage p h es

/-- A sequence of add operations, each a (path, hash) pair. -/
def stageAll (ops : List (List Nat × List Nat)) (es : List IndexEntry) : List IndexEntry :=
  ops.foldl (fun acc op => stage op.1 op.2 acc) es

/-- Big-endian value of a byte list. -/
def beVal (bs : List Nat) : Nat := bs.foldl (fun acc b => acc * 256 + b % 256) 0

/-- Big-endian bytes of a 16-bit value. -/
def u16beBytes (n : Nat) : List Nat := [n / 256 % 256, n % 256]

/-- The bytes writeIndex emits for one entry (src/main.go:250-255). -/
def writeIndexEntry (e : IndexEntry) : List Nat :=
  u32beBytes e.Mode ++ e.Hash ++ u16beBytes e.Path.length ++ e.Path

/-- writeIndex (src/main.go:235-258): signature, version 1, count, entries. -/
def writeIndex (entries : List IndexEntry) : List Nat :=
  strBytes "DIRC" ++ u32beBytes 1 ++ u32beBytes entries.length ++
    (entries.map writeIndexEntry).flatten

/-- The entry loop of readIndex (src/main.go:206-230). Go zero-initializes
the entry slice and the loop never assigns `PathLen` (the 2-byte length is
read into a local only to size the path read), so every produced entry
carries `PathLen = 0`. A short read on any field is a checked error. -/
def readEntries : Nat → List Nat → Option (List IndexEntry)
  | 0, _ => some []
  | k + 1, bs =>
    if bs.length < 4 then none
    else
      let mode := beVal (bs.take 4)
      let bs1 := bs.drop 4
      if bs1.length < 20 then none
      else
        let hash := bs1.take 20
        let bs2 := bs1.drop 20
        if bs2.length < 2 then none
        else
          let pathLen := beVal (bs2.take 2)
          let bs3 := bs2.drop 2
          if bs3.length < pathLen then none
          else
            match readEntries k (bs3.drop pathLen) with
            | some es =>
              some ({ Mode := mode, Hash := hash, PathLen := 0, Path := bs3.take pathLen } :: es)
            | none => none

/-- The 4-byte big-endian reads of version and count: readIndex ignores their
errors, so a short read leaves the Go zero value 0 (src/main.go:202-204). -/
def readU32Lenient (bs : List Nat) : Nat × List Nat :=
  if bs.length < 4 then (0, bs.drop 4) else (beVal (bs.take 4), bs.drop 4)

/-- readIndex (src/main.go:185-233) on the file's bytes. -/
def readIndex (bs : List Nat) : Option (List IndexEntry) :=
  if bs.take 4 = strBytes "DIRC" then
    let v := readU32Lenient (bs.drop 4)
    let c := readU32Lenient v.2
    readEntries c.1 c.2
  else none

/-! ## Commit codec: cmdCommitTree (src/main.go:393-432) encodes,
cmdLog (src/main.go:434-486) parses -/

/-- The fixed author/committer line (src/main.go:418-420). -/
def authorLine (ts : Nat) : List Nat :=
  strBytes "GoGit User <user@example.com> " ++ decBytes ts ++ strBytes " +0000"

/-- The commit payload built by cmdCommitTree (src/main.go:412-424): tree
line, optional parent line, author, committer, blank line, message, newline. -/
def commitEncode (treeSha parentSha message : List Nat) (ts : Nat) : List Nat :=
  strBytes "tree " ++ treeSha ++ 10 ::
    ((if parentSha = [] then [] else strBytes "parent " ++ parentSha ++ [10]) ++
      (strBytes "author " ++ authorLine ts ++ 10 ::
        (strBytes "committer " ++ authorLine ts ++ 10 ::
          (10 :: (message ++ [10])))))

/-- The header scan of cmdLog (src/main.go:457-467): the last
`"parent "`-prefixed line before the first blank line, trimmed; the branch
order mirrors the Go loop (blank is only reached by lines with no matching
prefix). -/
def scanParent (acc : List Nat) : List (List Nat) → List Nat
  | [] => acc
  | l :: ls =>
    if startsWith (strBytes "parent ") l then scanParent (l.drop 7) ls
    else if l = [] then acc
    else scanParent acc ls

/-- The lines after the first blank line (cmdLog src/main.go:469-475);
`none` when no blank line exists. -/
def msgLines : List (List Nat) → Option (List (List Nat))
  | [] => none
  | l :: ls => if l = [] then some ls else msgLines ls

/-- Modelled from the spec: cmdLog never extracts the tree id (its loop only
matches `"parent "`, `"author "`, `"committer "` and the blank line);
spec §4.3 says decode matches lines beginning with `"tree "` by prefix, so
this scan mirrors the implemented `"parent "` scan. -/
def scanTree (acc : List Nat) : List (List Nat) → List Nat
  | [] => acc
  | l :: ls =>
    if startsWith (strBytes "tree ") l then scanTree (l.drop 5) ls
    else if l = [] then acc
    else scanTree acc ls

/-- The fields cmdLog recovers from a commit payload (message is shown only
when a blank line exists and lines follow it, src/main.go:477-479). -/
structure CommitFields where
  treeId : List Nat
  parentId : List Nat
  message : Option (List Nat)
deriving DecidableEq, Repr

/-- Commit payload parsing: split into lines, scan headers before the first
blank line, rejoin the lines after it as the message. -/
def commitDecode (payload : List Nat) : CommitFields :=
  let lines := splitByte 10 payload
  { treeId := scanTree [] lines
    parentId := scanParent [] lines
    message :=
      match msgLines lines with
      | some (l :: ls) => some (joinByte 10 (l :: ls))
      | _ => none }

/-- The parent id the walk advances to: cmdLog's scan over the lines of the
payload after the first NUL. -/
def commitParentOf (payload : List Nat) : List Nat :=
  scanParent [] (splitByte 10 payload)

/-! ## Object store state: saveObject (src/main.go:308-341),
storeObject (286-306), readObject (531-554) -/

/-- The object file path derived from a hex id (src/main.go:310-318):
`.gogit/objects/<first two chars>/<rest>`. -/
def objPath (hash : List Nat) : List Nat :=
  strBytes ".gogit/objects/" ++ hash.take 2 ++ 47 :: hash.drop 2

/-- The slice of the filesystem the object store owns: file path ↦ stored
bytes, in creation order. saveObject writes the zlib compression of the
bytes; zlib is a deterministic, injective transport encoding applied at the
file boundary (readObject inverts it), so the map records the bytes
themselves. -/
structure ObjStore where
  files : List (List Nat × List Nat)
deriving DecidableEq, Repr

/-- `os.Stat` / `os.Open` on the store: first file at the path, if any. -/
def findFile : List (List Nat × List Nat) → List Nat → Option (List Nat)
  | [], _ => none
  | (p, c) :: fs, q => if p = q then some c else findFile fs q

/-- saveObject (src/main.go:308-341): when the path already exists the store
is untouched; otherwise the file is created. -/
def saveObject (hash content : List Nat) (s : ObjStore) : ObjStore :=
  if (findFile s.files (objPath hash)).isSome then s
  else { files := s.files ++ [(objPath hash, content)] }

/-- storeObject (src/main.go:286-306) as a state transformer: the returned
hex id and the store after saving. -/
def storeObject (typeStr content : List Nat) (s : ObjStore) : List Nat × ObjStore :=
  let store := objectBytes typeStr content
  (storeObjectId typeStr content, saveObject (storeObjectId typeStr content) store s)

/-- The cmdLog loop (src/main.go:434-486) as the list of commit ids it
visits: read the object at the cursor (a missing object stops the walk),
yield the id, and continue at the scanned parent while one is present. The
fuel bounds the walk length; the Go loop has no such bound (a cyclic chain
loops forever). -/
def logWalk (s : ObjStore) : Nat → List Nat → List (List Nat)
  | 0, _ => []
  | fuel + 1, sha =>
    match findFile s.files (objPath sha) with
    | none => []
    | some content =>
      let parent := commitParentOf (payloadOf content)
      sha :: (if parent = [] then [] else logWalk s fuel parent)

/-! ## Concrete inputs used by the claim theorems -/

/-- A hex id is well formed when it decodes to 20 bytes whose re-encoding
gives the id back: exactly the 40-lowercase-hex-character ids the store
emits. -/
def wfSha (sha : List Nat) : Bool :=
  match hexDecode sha with
  | some bs => bs.length == 20 && hexEncode bs == sha
  | none => false

/-- A tree entry round-trips when mode and name contain neither NUL nor
space and the child id is a well-formed hex digest. -/
abbrev wfTreeEntry (e : TreeEntry) : Prop :=
  0 ∉ e.mode ∧ 32 ∉ e.mode ∧ 0 ∉ e.name ∧ 32 ∉ e.name ∧ wfSha e.sha = true

/-- A tree entry whose name holds a space. -/
def spaceNameEntries : List TreeEntry :=
  [⟨strBytes "100644", strBytes "a b", strBytes "0000000000000000000000000000000000000000"⟩]

/-- Two well-formed tree entries (a file and a subdirectory). -/
def wfExampleEntries : List TreeEntry :=
  [⟨strBytes "100644", strBytes "hello.txt", strBytes "b6fc4c620b67d95f953a5c1c1230aaab5db5a1b0"⟩,
    ⟨strBytes "40000", strBytes "sub", strBytes "0123456789abcdef0123456789abcdef01234567"⟩]

/-- A root commit object (no parent line). -/
def rootCommitObj : List Nat :=
  objectBytes (strBytes "commit") (commitEncode (strBytes "t1") [] (strBytes "m1") 0)

/-- A child commit object whose parent line names id `"aa"`. -/
def childCommitObj : List Nat :=
  objectBytes (strBytes "commit") (commitEncode (strBytes "t2") (strBytes "aa") (strBytes "m2") 0)

/-- A store holding the two commits at ids `"aa"` and `"bb"`. -/
def twoCommitStore : ObjStore :=
  ⟨[(objPath (strBytes "aa"), rootCommitObj), (objPath (strBytes "bb"), childCommitObj)]⟩

/-- A two-entry index with distinct paths, every mode the staged one. -/
def exampleIndex : List IndexEntry :=
  [⟨0o100644, List.replicate 20 1, 0, strBytes "a.txt"⟩,
    ⟨0o100644, List.replicate 20 2, 0, strBytes "b.txt"⟩]

/-- The on-disk bytes of a one-entry index whose record was written with a
deliberately nonzero in-memory `PathLen`. -/
def exampleIndexBytes : List Nat :=
  writeIndex [⟨0o100644, List.replicate 20 7, 99, strBytes "a.txt"⟩]

/-! ## Supporting lemmas -/

theorem sha1_length (m : List Nat) : (sha1 m).length = 20 := by
  simp [sha1, u32beBytes]

theorem hexEncode_length (bs : List Nat) : (hexEncode bs).length = 2 * bs.length := by
  induction bs with
  | nil => rfl
  | cons b bs ih => simp [hexEncode, ih]; omega

theorem hexDigitChar_mem : ∀ n < 16, hexDigitChar n ∈ strBytes "0123456789abcdef" := by
  decide

theorem hexEncode_mem (bs : List Nat) :
    ∀ c ∈ hexEncode bs, c ∈ strBytes "0123456789abcdef" := by
  induction bs with
  | nil => simp [hexEncode]
  | cons b bs ih =>
    intro c hc
    simp only [hexEncode, List.mem_cons] at hc
    rcases hc with h | h | h
    · subst h
      exact hexDigitChar_mem _ ((Nat.div_lt_iff_lt_mul (by norm_num)).2 (Nat.mod_lt _ (by norm_num)))
    · subst h
      exact hexDigitChar_mem _ (Nat.mod_lt _ (by norm_num))
    · exact ih c h

theorem findFile_append_self (fs : List (List Nat × List Nat)) (q c : List Nat)
    (h : findFile fs q = none) : findFile (fs ++ [(q, c)]) q = some c := by
  induction fs with
  | nil => simp [findFile]
  | cons f fs ih =>
    obtain ⟨fp, fc⟩ := f
    by_cases hq : fp = q
    · simp [findFile, hq] at h
    · simp only [findFile, hq, if_false, List.cons_append] at h ⊢
      exact ih h

theorem splitByte_exists_cons (sep : Nat) (xs : List Nat) :
    ∃ l ls, splitByte sep xs = l :: ls := by
  cases xs with
  | nil => exact ⟨[], [], rfl⟩
  | cons b bs =>
    by_cases hb : b = sep
    · exact ⟨[], splitByte sep bs, by simp [splitByte, hb]⟩
    · cases h : splitByte sep bs with
      | nil => exact ⟨[b], [], by simp [splitByte, hb, h]⟩
      | cons l ls => exact ⟨b :: l, ls, by simp [splitByte, hb, h]⟩

theorem splitByte_append_sep (sep : Nat) (xs ys : List Nat) :
    splitByte sep (xs ++ sep :: ys) = splitByte sep xs ++ splitByte sep ys := by
  induction xs with
  | nil => simp [splitByte]
  | cons b bs ih =>
    by_cases hb : b = sep
    · subst hb
      simp [splitByte, ih]
    · obtain ⟨l, ls, h0⟩ := splitByte_exists_cons sep bs
      simp only [List.cons_append, splitByte, hb, if_false, List.append_eq]
      rw [ih, h0]
      simp

theorem splitByte_not_mem (sep : Nat) (xs : List Nat) (h : sep ∉ xs) :
    splitByte sep xs = [xs] := by
  induction xs with
  | nil => rfl
  | cons b bs ih =>
    have hb : b ≠ sep := fun hh => h (hh ▸ List.mem_cons_self b bs)
    have hbs : sep ∉ bs := fun hh => h (List.mem_cons_of_mem b hh)
    simp [splitByte, hb, ih hbs]

theorem joinByte_cons_cons (sep : Nat) (l l2 : List Nat) (ls : List (List Nat)) :
    joinByte sep (l :: l2 :: ls) = l ++ sep :: joinByte sep (l2 :: ls) := rfl

theorem joinByte_append (sep : Nat) (ls ls' : List (List Nat))
    (h : ls ≠ []) (h' : ls' ≠ []) :
    joinByte sep (ls ++ ls') = joinByte sep ls ++ sep :: joinByte sep ls' := by
  induction ls with
  | nil => exact absurd rfl h
  | cons l ls ih =>
    cases ls with
    | nil =>
      cases ls' with
      | nil => exact absurd rfl h'
      | cons l' ls'' => simp [joinByte_cons_cons, joinByte]
    | cons l2 ls2 =>
      have h2 := ih (by simp)
      simp only [List.cons_append] at h2 ⊢
      rw [joinByte_cons_cons, h2, joinByte_cons_cons]
      simp

theorem joinByte_splitByte (sep : Nat) (xs : List Nat) :
    joinByte sep (splitByte sep xs) = xs := by
  induction xs with
  | nil => rfl
  | cons b bs ih =>
    by_cases hb : b = sep
    · subst hb
      obtain ⟨l, ls, h0⟩ := splitByte_exists_cons b bs
      rw [show splitByte b (b :: bs) = [] :: splitByte b bs by simp [splitByte]]
      rw [h0, joinByte_cons_cons]
      rw [h0] at ih
      simp [ih]
    · obtain ⟨l, ls, h0⟩ := splitByte_exists_cons sep bs
      rw [show splitByte sep (b :: bs) = (b :: l) :: ls by simp [splitByte, hb, h0]]
      rw [h0] at ih
      cases ls with
      | nil => simpa [joinByte] using congrArg (b :: ·) ih
      | cons l2 ls2 =>
        rw [joinByte_cons_cons] at ih ⊢
        simpa using congrArg (b :: ·) ih

theorem splitAtNul_append (xs ys : List Nat) (h : 0 ∉ xs) :
    splitAtNul (xs ++ 0 :: ys) = some (xs, ys) := by
  induction xs with
  | nil => simp [splitAtNul]
  | cons b bs ih =>
    have hb : b ≠ 0 := fun hh => h (hh ▸ List.mem_cons_self b bs)
    have hbs : 0 ∉ bs := fun hh => h (List.mem_cons_of_mem b hh)
    simp [splitAtNul, hb, ih hbs]

set_option maxRecDepth 100000 in
theorem golden_blob_hello :
    storeObjectId (strBytes "blob") (strBytes "hello") =
      strBytes "b6fc4c620b67d95f953a5c1c1230aaab5db5a1b0" := by
  decide

theorem startsWith_parent_nil : startsWith (strBytes "parent ") [] = false := rfl

theorem scanParent_stops_at_blank (acc : List Nat) (pre post post' : List (List Nat)) :
    scanParent acc (pre ++ [] :: post) = scanParent acc (pre ++ [] :: post') := by
  induction pre generalizing acc with
  | nil => simp [scanParent, startsWith_parent_nil]
  | cons l ls ih =>
    simp only [List.cons_append, scanParent]
    by_cases hpre : startsWith (strBytes "parent ") l = true
    · simp only [hpre, if_true]
      exact ih _
    · simp only [hpre, if_false]
      by_cases hl : l = []
      · simp [hl]
      · simp only [hl, if_false]
        exact ih _

/-! ## Claim theorems -/

/-- C1: for every kind and payload, the id returned by the object-store put
equals the lowercase hex SHA-1 digest of `"<kind> <len(payload)>\0" ++
payload`; in particular `put("blob", b"hello")` returns the digest of
`"blob 5\0hello"`, and the id is 40 lowercase hex characters. The id is a
pure function of `(kind, payload)` by construction. -/
theorem C1_put_id_is_sha1_hex (k p : List Nat) :
    storeObjectId (strBytes "blob") (strBytes "hello") =
      strBytes "b6fc4c620b67d95f953a5c1c1230aaab5db5a1b0" ∧
    storeObjectId k p = hexEncode (sha1 (k ++ 32 :: (decBytes p.length ++ 0 :: p))) ∧
    (storeObjectId k p).length = 40 ∧
    ∀ c ∈ storeObjectId k p, c ∈ strBytes "0123456789abcdef" := by
  refine ⟨golden_blob_hello, ?_, ?_, hexEncode_mem _⟩
  · simp [storeObjectId, objectBytes, objectHeader]
  · simp [storeObjectId, hexEncode_length, sha1_length]

/-- C3: putting the same (kind, payload) twice returns the same id both times
and the second call leaves the store untouched (the file exists, so
`saveObject` skips the write); a first call appends the object file only
when its path is absent. -/
theorem C3_put_idempotent (k p : List Nat) (s : ObjStore) :
    (storeObject k p (storeObject k p s).2).1 = (storeObject k p s).1 ∧
    (storeObject k p (storeObject k p s).2).2 = (storeObject k p s).2 ∧
    ((storeObject k p s).2).files =
      (if (findFile s.files (objPath (storeObjectId k p))).isSome then s.files
        else s.files ++ [(objPath (storeObjectId k p), objectBytes k p)]) := by
  refine ⟨rfl, ?_, ?_⟩
  · show saveObject _ _ (saveObject _ _ s) = saveObject _ _ s
    unfold saveObject
    cases hf : findFile s.files (objPath (storeObjectId k p)) with
    | some c => simp [hf]
    | none =>
      simp only [hf, Option.isSome_none, Bool.false_eq_true, if_false]
      have := findFile_append_self s.files (objPath (storeObjectId k p)) (objectBytes k p) hf
      simp [this]
  · unfold storeObject saveObject
    split <;> simp

/-- C7: cmdLog's walk yields the commit at the cursor and advances to the
scanned parent id while one is present: from a commit whose parent is a
root commit (no parent line before the blank line), the walk yields exactly
those two ids in order and stops. -/
theorem C7_log_chain (s : ObjStore) (id2 id1 c2 c1 : List Nat) (fuel : Nat)
    (h2 : findFile s.files (objPath id2) = some c2)
    (h1 : findFile s.files (objPath id1) = some c1)
    (hp2 : commitParentOf (payloadOf c2) = id1)
    (hp1 : commitParentOf (payloadOf c1) = [])
    (hne : id1 ≠ [])
    (hfuel : 2 ≤ fuel) :
    logWalk s fuel id2 = [id2, id1] := by
  obtain ⟨f, rfl⟩ : ∃ f, fuel = f + 2 := ⟨fuel - 2, by omega⟩
  have step2 : logWalk s (f + 1) id1 = [id1] := by
    rw [logWalk, h1]
    simp [hp1]
  show logWalk s (f + 1 + 1) id2 = [id2, id1]
  rw [logWalk, h2]
  simp [hp2, hne, step2]

/-- C10: the scan that picks the next parent id stops at the first blank
line, so the bytes after a blank line (the commit message) never change the
scanned parent: two payloads agreeing before the blank line scan alike. -/
theorem C10_message_parent_inert (hdr m m' : List Nat) :
    commitParentOf (hdr ++ 10 :: 10 :: m) = commitParentOf (hdr ++ 10 :: 10 :: m') := by
  unfold commitParentOf
  rw [show (10 : Nat) :: 10 :: m = 10 :: (10 :: m) from rfl,
    show (10 : Nat) :: 10 :: m' = 10 :: (10 :: m') from rfl,
    splitByte_append_sep, splitByte_append_sep]
  rw [show splitByte 10 (10 :: m) = [] :: splitByte 10 m by simp [splitByte],
    show splitByte 10 (10 :: m') = [] :: splitByte 10 m' by simp [splitByte]]
  exact scanParent_stops_at_blank [] (splitByte 10 hdr) _ _

/-- Witness for C7: the walk over the concrete two-commit store. -/
theorem C7_log_chain_witness :
    logWalk twoCommitStore 2 (strBytes "bb") = [strBytes "bb", strBytes "aa"] :=
  C7_log_chain twoCommitStore (strBytes "bb") (strBytes "aa") childCommitObj rootCommitObj 2
    (by decide) (by decide) (by decide) (by decide) (by decide) (by decide)

theorem treeDecodeAux_nil (fuel : Nat) : treeDecodeAux fuel [] = .ok [] := by
  cases fuel <;> rfl

theorem treeDecodeAux_succ (fuel : Nat) (bs : List Nat) (h : bs ≠ []) :
    treeDecodeAux (fuel + 1) bs =
      match splitAtNul bs with
      | none => .error .noNulTerminator
      | some (header, rest) =>
        match splitByte 32 header with
        | mo :: na :: _ =>
          let sha20 := rest.take 20
          let shaBytes := sha20 ++ List.replicate (20 - sha20.length) 0
          match treeDecodeAux fuel (rest.drop 20) with
          | .ok es => .ok (⟨mo, na, hexEncode shaBytes⟩ :: es)
          | .error e => .error e
        | _ => .error .missingName := by
  cases bs with
  | nil => exact absurd rfl h
  | cons b bs => rfl

theorem wfSha_elim (sha shaB : List Nat) (hd : hexDecode sha = some shaB)
    (h : wfSha sha = true) : shaB.length = 20 ∧ hexEncode shaB = sha := by
  simp only [wfSha, hd, Bool.and_eq_true, beq_iff_eq] at h
  exact h

theorem wfSha_some (sha : List Nat) (h : wfSha sha = true) :
    ∃ shaB, hexDecode sha = some shaB := by
  cases hd : hexDecode sha with
  | none => simp [wfSha, hd] at h
  | some shaB => exact ⟨shaB, rfl⟩

theorem treeEncode_cons (e : TreeEntry) (es : List TreeEntry) (shaB rest : List Nat)
    (hd : hexDecode e.sha = some shaB) (he : treeEncode es = some rest) :
    treeEncode (e :: es) = some ((e.mode ++ 32 :: (e.name ++ 0 :: shaB)) ++ rest) := by
  simp [treeEncode, treeEncodeEntry, hd, he]

theorem treeDecodeAux_encode (es : List TreeEntry) (bs : List Nat) (fuel : Nat)
    (hwf : ∀ e ∈ es, wfTreeEntry e) (henc : treeEncode es = some bs)
    (hfuel : es.length ≤ fuel) :
    treeDecodeAux fuel bs = .ok es := by
  induction es generalizing bs fuel with
  | nil =>
    simp only [treeEncode, Option.some.injEq] at henc
    subst henc
    exact treeDecodeAux_nil fuel
  | cons e es ih =>
    obtain ⟨hm0, hmS, hn0, hnS, hsha⟩ := hwf e (List.mem_cons_self e es)
    obtain ⟨shaB, hd⟩ := wfSha_some e.sha hsha
    obtain ⟨hlen, hhex⟩ := wfSha_elim e.sha shaB hd hsha
    cases he : treeEncode es with
    | none => simp [treeEncode, treeEncodeEntry, hd, he] at henc
    | some rest =>
      rw [treeEncode_cons e es shaB rest hd he, Option.some.injEq] at henc
      subst henc
      obtain ⟨f, rfl⟩ : ∃ f, fuel = f + 1 := ⟨fuel - 1, by simp at hfuel; omega⟩
      have hne : (e.mode ++ 32 :: (e.name ++ 0 :: shaB)) ++ rest ≠ [] := by simp
      rw [treeDecodeAux_succ f _ hne]
      rw [show (e.mode ++ 32 :: (e.name ++ 0 :: shaB)) ++ rest =
        (e.mode ++ 32 :: e.name) ++ 0 :: (shaB ++ rest) by simp]
      rw [splitAtNul_append _ _ (by simp [hm0, hn0])]
      have htake : (shaB ++ rest).take 20 = shaB := hlen ▸ List.take_left shaB rest
      have hdrop : (shaB ++ rest).drop 20 = rest := hlen ▸ List.drop_left shaB rest
      have hih := ih rest f (fun x hx => hwf x (List.mem_cons_of_mem _ hx)) he
        (by simp at hfuel; omega)
      simp only [splitByte_append_sep, splitByte_not_mem 32 e.mode hmS,
        splitByte_not_mem 32 e.name hnS, List.singleton_append, htake, hdrop, hih]
      simp [hlen, hhex]

theorem treeEncode_isSome (es : List TreeEntry) (hwf : ∀ e ∈ es, wfTreeEntry e) :
    ∃ bs, treeEncode es = some bs := by
  induction es with
  | nil => exact ⟨[], rfl⟩
  | cons e es ih =>
    obtain ⟨rest, he⟩ := ih (fun x hx => hwf x (List.mem_cons_of_mem _ hx))
    obtain ⟨_, _, _, _, hsha⟩ := hwf e (List.mem_cons_self e es)
    obtain ⟨shaB, hd⟩ := wfSha_some e.sha hsha
    exact ⟨_, treeEncode_cons e es shaB rest hd he⟩

theorem treeEncode_length_ge (es : List TreeEntry) (bs : List Nat)
    (henc : treeEncode es = some bs) : es.length ≤ bs.length := by
  induction es generalizing bs with
  | nil => simp
  | cons e es ih =>
    cases hd : hexDecode e.sha with
    | none => simp [treeEncode, treeEncodeEntry, hd] at henc
    | some shaB =>
      cases he : treeEncode es with
      | none => simp [treeEncode, treeEncodeEntry, hd, he] at henc
      | some rest =>
        rw [treeEncode_cons e es shaB rest hd he, Option.some.injEq] at henc
        subst henc
        have := ih rest he
        simp
        omega

/-- C2 (amended): the tree round-trip holds for entries whose mode and name
contain neither NUL nor space bytes and whose child id is a well-formed
40-lowercase-hex digest; for such sequences decode of encode returns exactly
the input sequence. -/
theorem C2_tree_roundtrip (es : List TreeEntry) (hwf : ∀ e ∈ es, wfTreeEntry e) :
    (treeEncode es).map treeDecode = some (.ok es) := by
  obtain ⟨bs, henc⟩ := treeEncode_isSome es hwf
  rw [henc, Option.map_some']
  exact congrArg some
    (treeDecodeAux_encode es bs bs.length hwf henc (treeEncode_length_ge es bs henc))

/-- C2 counterexample: for a name containing a space the round-trip fails as
stated — the decoder splits the header on every space and keeps only the
token after the first one, so `"a b"` comes back as `"a"`. -/
theorem C2_counterexample :
    (treeEncode spaceNameEntries).map treeDecode ≠ some (.ok spaceNameEntries) := by
  decide

/-- Witness for C2 at two concrete well-formed entries. -/
theorem C2_tree_roundtrip_witness :
    (treeEncode wfExampleEntries).map treeDecode = some (.ok wfExampleEntries) :=
  C2_tree_roundtrip wfExampleEntries (by decide)

/-- C6 (amended): a payload ending mid-entry — fewer than 20 bytes left
after a NUL-terminated `"<mode> <name>"` header — does not make the decoder
fail: the unchecked short read keeps the zero padding, so decoding succeeds
and the final entry's digest is the remaining bytes zero-padded to 20. -/
theorem C6_truncated_tree_zero_pad (m n bs : List Nat)
    (hm0 : 0 ∉ m) (hmS : 32 ∉ m) (hn0 : 0 ∉ n) (hnS : 32 ∉ n)
    (hlen : bs.length < 20) :
    treeDecode (m ++ 32 :: (n ++ 0 :: bs)) =
      .ok [⟨m, n, hexEncode (bs ++ List.replicate (20 - bs.length) 0)⟩] := by
  rw [treeDecode]
  have hne : m ++ 32 :: (n ++ 0 :: bs) ≠ [] := by simp
  obtain ⟨L, hL⟩ : ∃ L, (m ++ 32 :: (n ++ 0 :: bs)).length = L + 1 :=
    ⟨(m ++ 32 :: (n ++ 0 :: bs)).length - 1, by simp; omega⟩
  rw [hL, treeDecodeAux_succ L _ hne]
  rw [show m ++ 32 :: (n ++ 0 :: bs) = (m ++ 32 :: n) ++ 0 :: bs by simp]
  rw [splitAtNul_append _ _ (by simp [hm0, hn0])]
  simp only [splitByte_append_sep, splitByte_not_mem 32 m hmS, splitByte_not_mem 32 n hnS,
    List.singleton_append, List.take_of_length_le (Nat.le_of_lt hlen),
    List.drop_eq_nil_of_le (Nat.le_of_lt hlen), treeDecodeAux_nil]

/-- Witness for C6 at a concrete truncated payload. -/
theorem C6_truncated_tree_zero_pad_witness :
    treeDecode (strBytes "100644" ++ 32 :: (strBytes "b.txt" ++ 0 :: [170, 187])) =
      .ok [⟨strBytes "100644", strBytes "b.txt",
        hexEncode ([170, 187] ++ List.replicate (20 - ([170, 187] : List Nat).length) 0)⟩] :=
  C6_truncated_tree_zero_pad (strBytes "100644") (strBytes "b.txt") [170, 187]
    (by decide) (by decide) (by decide) (by decide) (by decide)

/-- C6 counterexample: on a payload ending mid-entry the decoder returns a
decoded entry sequence (digest zero-padded) instead of failing. -/
theorem C6_counterexample :
    treeDecode (strBytes "100644 a" ++ 0 :: [1, 2, 3, 4, 5]) =
      .ok [⟨strBytes "100644", strBytes "a",
        strBytes "0102030405000000000000000000000000000000"⟩] := by
  decide

theorem stage_not_mem (es : List IndexEntry) (p h : List Nat)
    (hab : ∀ e ∈ es, e.Path ≠ p) :
    stage p h es = es ++ [⟨0o100644, h, 0, p⟩] := by
  induction es with
  | nil => rfl
  | cons e es ih =>
    have he : e.Path ≠ p := hab e (List.mem_cons_self e es)
    simp [stage, he, ih (fun x hx => hab x (List.mem_cons_of_mem _ hx))]

theorem map_replace_id (es : List IndexEntry) (p h2 : List Nat)
    (hab : ∀ e ∈ es, e.Path ≠ p) :
    es.map (fun e => if e.Path = p then { e with Hash := h2 } else e) = es := by
  induction es with
  | nil => rfl
  | cons e es ih =>
    have he : e.Path ≠ p := hab e (List.mem_cons_self e es)
    simp [he, ih (fun x hx => hab x (List.mem_cons_of_mem _ hx))]

theorem countP_zero_not_mem (es : List IndexEntry) (p : List Nat)
    (h : es.countP (fun e => e.Path == p) = 0) : ∀ e ∈ es, e.Path ≠ p := by
  intro e he heq
  have := List.countP_eq_zero.mp h e he
  simp [heq] at this

theorem stage_countP (es : List IndexEntry) (p h1 : List Nat)
    (hu : es.countP (fun e => e.Path == p) ≤ 1) :
    (stage p h1 es).countP (fun e => e.Path == p) = 1 := by
  induction es with
  | nil => simp [stage, List.countP_cons]
  | cons e es ih =>
    by_cases hp : e.Path = p
    · rw [stage, if_pos hp]
      rw [List.countP_cons] at hu
      rw [List.countP_cons]
      simp only [hp, beq_self_eq_true, if_true] at hu ⊢
      omega
    · rw [stage, if_neg hp]
      rw [List.countP_cons] at hu
      rw [List.countP_cons]
      have hb : (e.Path == p) = false := beq_eq_false_iff_ne.mpr hp
      simp only [hb, Bool.false_eq_true, if_false, Nat.add_zero] at hu ⊢
      exact ih hu

theorem stage_stage_map (es : List IndexEntry) (p h1 h2 : List Nat)
    (hu : es.countP (fun e => e.Path == p) ≤ 1) :
    stage p h2 (stage p h1 es) =
      (stage p h1 es).map (fun e => if e.Path = p then { e with Hash := h2 } else e) := by
  induction es with
  | nil => simp [stage]
  | cons e es ih =>
    by_cases hp : e.Path = p
    · rw [stage, if_pos hp]
      have hzero : es.countP (fun e => e.Path == p) = 0 := by
        rw [List.countP_cons] at hu
        simp only [hp, beq_self_eq_true, if_pos] at hu
        omega
      have hrest := countP_zero_not_mem es p hzero
      rw [stage, if_pos hp]
      simp only [List.map_cons, if_pos hp, map_replace_id es p h2 hrest]
    · rw [stage, if_neg hp]
      have hu' : es.countP (fun e => e.Path == p) ≤ 1 := by
        rw [List.countP_cons] at hu
        omega
      rw [stage, if_neg hp, ih hu']
      simp [if_neg hp]

/-- C4: staging a path twice (with the uniqueness invariant the index format
keeps: at most one entry per path) leaves the length unchanged, exactly one
entry for the path, and the second staging only rewrites that entry's hash
in place; staging an absent path appends exactly one entry at the end. -/
theorem C4_stage_replace (es : List IndexEntry) (p h1 h2 : List Nat)
    (hu : es.countP (fun e => e.Path == p) ≤ 1) :
    (stage p h2 (stage p h1 es)).length = (stage p h1 es).length ∧
    (stage p h2 (stage p h1 es)).countP (fun e => e.Path == p) = 1 ∧
    stage p h2 (stage p h1 es) =
      (stage p h1 es).map (fun e => if e.Path = p then { e with Hash := h2 } else e) ∧
    ((∀ e ∈ es, e.Path ≠ p) → stage p h1 es = es ++ [⟨0o100644, h1, 0, p⟩]) := by
  refine ⟨?_, ?_, stage_stage_map es p h1 h2 hu, stage_not_mem es p h1⟩
  · rw [stage_stage_map es p h1 h2 hu, List.length_map]
  · exact stage_countP (stage p h1 es) p h2 (by rw [stage_countP es p h1 hu])

/-- Witness for C4: after staging `"b.txt"` twice into the concrete index,
exactly one entry carries that path. -/
theorem C4_stage_replace_witness :
    (stage (strBytes "b.txt") (List.replicate 20 9)
        (stage (strBytes "b.txt") (List.replicate 20 3) exampleIndex)).countP
      (fun e => e.Path == strBytes "b.txt") = 1 :=
  (C4_stage_replace exampleIndex (strBytes "b.txt") (List.replicate 20 3)
    (List.replicate 20 9) (by decide)).2.1

theorem readEntries_pathLen (k : Nat) :
    ∀ bs es, readEntries k bs = some es → ∀ e ∈ es, e.PathLen = 0 := by
  induction k with
  | zero =>
    intro bs es h e he
    simp only [readEntries, Option.some.injEq] at h
    subst h
    cases he
  | succ k ih =>
    intro bs es h e he
    rw [readEntries] at h
    split at h
    · cases h
    · simp only [] at h
      split at h
      · cases h
      · split at h
        · cases h
        · split at h
          · cases h
          · split at h
            next es' heq =>
              rw [Option.some.injEq] at h
              subst h
              rcases List.mem_cons.mp he with rfl | hmem
              · rfl
              · exact ih _ _ heq e hmem
            next => cases h

/-- C8: entries returned by the index load always carry `PathLen = 0` (the
on-disk length field only sizes the path read), and the bytes the index save
writes do not depend on the `PathLen` fields of its input. -/
theorem C8_pathLen_unused :
    (∀ bs es, readIndex bs = some es → ∀ e ∈ es, e.PathLen = 0) ∧
    (∀ (es : List IndexEntry) (f : IndexEntry → Nat),
      writeIndex (es.map (fun e => { e with PathLen := f e })) = writeIndex es) := by
  constructor
  · intro bs es h e he
    rw [readIndex] at h
    split at h
    · exact readEntries_pathLen _ _ _ h e he
    · cases h
  · intro es f
    rw [writeIndex, writeIndex, List.length_map, List.map_map]
    rfl

/-- Witness for C8: loading the concrete index file zeroes the entry's
`PathLen`, and saving with a rewritten `PathLen` emits identical bytes. -/
theorem C8_pathLen_unused_witness :
    (⟨0o100644, List.replicate 20 7, 0, strBytes "a.txt"⟩ : IndexEntry).PathLen = 0 ∧
    writeIndex (([⟨0o100644, List.replicate 20 7, 99, strBytes "a.txt"⟩] : List IndexEntry).map
        (fun e => { e with PathLen := 0 })) =
      writeIndex [⟨0o100644, List.replicate 20 7, 99, strBytes "a.txt"⟩] :=
  ⟨C8_pathLen_unused.1 exampleIndexBytes
      ([⟨0o100644, List.replicate 20 7, 0, strBytes "a.txt"⟩] : List IndexEntry) (by decide)
      (⟨0o100644, List.replicate 20 7, 0, strBytes "a.txt"⟩ : IndexEntry) (by decide),
    C8_pathLen_unused.2 ([⟨0o100644, List.replicate 20 7, 99, strBytes "a.txt"⟩] : List IndexEntry)
      (fun _ => 0)⟩

theorem stage_mode (es : List IndexEntry) (p h : List Nat)
    (hm : ∀ e ∈ es, e.Mode = 0o100644) :
    ∀ e ∈ stage p h es, e.Mode = 0o100644 := by
  induction es with
  | nil =>
    intro e he
    simp only [stage, List.mem_singleton] at he
    subst he
    rfl
  | cons x es ih =>
    intro e he
    by_cases hp : x.Path = p
    · rw [stage, if_pos hp] at he
      rcases List.mem_cons.mp he with rfl | hmem
      · rfl
      · exact hm e (List.mem_cons_of_mem _ hmem)
    · rw [stage, if_neg hp] at he
      rcases List.mem_cons.mp he with rfl | hmem
      · exact hm e (List.mem_cons_self _ _)
      · exact ih (fun y hy => hm y (List.mem_cons_of_mem _ hy)) e hmem

/-- C9: every entry the add operation produces has mode 0o100644 (both the
replace and the append branch fix it), so any sequence of adds starting from
an index whose entries all carry that mode preserves the property. -/
theorem C9_staged_mode_invariant (ops : List (List Nat × List Nat)) (es : List IndexEntry)
    (hm : ∀ e ∈ es, e.Mode = 0o100644) :
    ∀ e ∈ stageAll ops es, e.Mode = 0o100644 := by
  induction ops generalizing es with
  | nil => exact hm
  | cons op ops ih =>
    rw [stageAll, List.foldl_cons]
    exact ih _ (stage_mode es op.1 op.2 hm)

/-- Witness for C9: the entry staged for `"b.txt"` in a concrete two-add
sequence has the fixed mode. -/
theorem C9_staged_mode_invariant_witness :
    (⟨0o100644, List.replicate 20 2, 0, strBytes "b.txt"⟩ : IndexEntry).Mode = 0o100644 :=
  C9_staged_mode_invariant
    [(strBytes "a.txt", List.replicate 20 1), (strBytes "b.txt", List.replicate 20 2)] []
    (by decide) _ (by decide)

theorem decBytesAux_mem (fuel : Nat) :
    ∀ n acc c, c ∈ decBytesAux fuel n acc → (48 ≤ c ∧ c ≤ 57) ∨ c ∈ acc := by
  induction fuel with
  | zero => intro n acc c hc; exact Or.inr hc
  | succ fuel ih =>
    intro n acc c hc
    rw [decBytesAux] at hc
    split at hc
    · rcases List.mem_cons.mp hc with rfl | hmem
      · omega
      · exact Or.inr hmem
    · rcases ih _ _ _ hc with hb | hmem
      · exact Or.inl hb
      · rcases List.mem_cons.mp hmem with rfl | hmem2
        · left
          have : n % 10 < 10 := Nat.mod_lt _ (by norm_num)
          omega
        · exact Or.inr hmem2

theorem ten_not_mem_decBytes (n : Nat) : 10 ∉ decBytes n := by
  intro h
  rcases decBytesAux_mem (n + 1) n [] 10 h with hb | hmem
  · omega
  · cases hmem

theorem ten_not_mem_authorLine (ts : Nat) : 10 ∉ authorLine ts := by
  intro h
  rw [authorLine] at h
  rcases List.mem_append.mp h with h1 | h2
  · rcases List.mem_append.mp h1 with h3 | h4
    · exact absurd h3 (by decide)
    · exact ten_not_mem_decBytes ts h4
  · exact absurd h2 (by decide)

theorem splitByte_header_line (l rest : List Nat) (hl : 10 ∉ l) :
    splitByte 10 (l ++ 10 :: rest) = l :: splitByte 10 rest := by
  rw [splitByte_append_sep, splitByte_not_mem 10 l hl, List.singleton_append]

theorem startsWith_append_self (ps rest : List Nat) : startsWith ps (ps ++ rest) = true := by
  induction ps with
  | nil => rfl
  | cons p ps ih => simp [startsWith, ih]

theorem startsWith_tree_parent (P : List Nat) :
    startsWith (strBytes "tree ") (strBytes "parent " ++ P) = false := rfl

theorem startsWith_tree_author (a : List Nat) :
    startsWith (strBytes "tree ") (strBytes "author " ++ a) = false := rfl

theorem startsWith_tree_committer (a : List Nat) :
    startsWith (strBytes "tree ") (strBytes "committer " ++ a) = false := rfl

theorem startsWith_tree_nil : startsWith (strBytes "tree ") [] = false := rfl

theorem startsWith_parent_tree (T : List Nat) :
    startsWith (strBytes "parent ") (strBytes "tree " ++ T) = false := rfl

theorem startsWith_parent_author (a : List Nat) :
    startsWith (strBytes "parent ") (strBytes "author " ++ a) = false := rfl

theorem startsWith_parent_committer (a : List Nat) :
    startsWith (strBytes "parent ") (strBytes "committer " ++ a) = false := rfl

theorem scanTree_cons_match (acc l : List Nat) (ls : List (List Nat))
    (h : startsWith (strBytes "tree ") l = true) :
    scanTree acc (l :: ls) = scanTree (l.drop 5) ls := by
  rw [scanTree, if_pos h]

theorem scanTree_cons_skip (acc l : List Nat) (ls : List (List Nat))
    (h : startsWith (strBytes "tree ") l = false) (hl : l ≠ []) :
    scanTree acc (l :: ls) = scanTree acc ls := by
  rw [scanTree, if_neg (by simp [h]), if_neg hl]

theorem scanTree_blank (acc : List Nat) (ls : List (List Nat)) :
    scanTree acc ([] :: ls) = acc := by
  rw [scanTree, if_neg (by simp [startsWith_tree_nil]), if_pos rfl]

theorem scanParent_cons_match (acc l : List Nat) (ls : List (List Nat))
    (h : startsWith (strBytes "parent ") l = true) :
    scanParent acc (l :: ls) = scanParent (l.drop 7) ls := by
  rw [scanParent, if_pos h]

theorem scanParent_cons_skip (acc l : List Nat) (ls : List (List Nat))
    (h : startsWith (strBytes "parent ") l = false) (hl : l ≠ []) :
    scanParent acc (l :: ls) = scanParent acc ls := by
  rw [scanParent, if_neg (by simp [h]), if_neg hl]

theorem scanParent_blank (acc : List Nat) (ls : List (List Nat)) :
    scanParent acc ([] :: ls) = acc := by
  rw [scanParent, if_neg (by simp [startsWith_parent_nil]), if_pos rfl]

theorem msgLines_cons_ne (l : List Nat) (ls : List (List Nat)) (h : l ≠ []) :
    msgLines (l :: ls) = msgLines ls := by
  rw [msgLines, if_neg h]

theorem msgLines_blank (ls : List (List Nat)) : msgLines ([] :: ls) = some ls := by
  rw [msgLines, if_pos rfl]

theorem append_ne_nil_left (A B : List Nat) (h : A ≠ []) : A ++ B ≠ [] := by
  intro hh
  exact h (List.append_eq_nil.mp hh).1

/-- C5 (amended): the commit round-trip recovers the tree id and the parent
id exactly, but the recovered message is the input message with one trailing
newline appended — the encoder writes `"\n<message>\n"` and the decoder
rejoins every line after the first blank line, including the empty line the
final newline produces. Holds for newline-free tree and parent ids and a
nonempty message (the command refuses an empty one). -/
theorem C5_commit_roundtrip (T P M : List Nat) (ts : Nat)
    (hT : 10 ∉ T) (hP : 10 ∉ P) (_hM : M ≠ []) :
    (commitDecode (commitEncode T P M ts)).treeId = T ∧
    (commitDecode (commitEncode T P M ts)).parentId = P ∧
    (commitDecode (commitEncode T P M ts)).message = some (M ++ [10]) := by
  have hTl : (10 : Nat) ∉ strBytes "tree " ++ T := by
    intro h
    rcases List.mem_append.mp h with h1 | h2
    · exact absurd h1 (by decide)
    · exact hT h2
  have hPl : (10 : Nat) ∉ strBytes "parent " ++ P := by
    intro h
    rcases List.mem_append.mp h with h1 | h2
    · exact absurd h1 (by decide)
    · exact hP h2
  have hAl : (10 : Nat) ∉ strBytes "author " ++ authorLine ts := by
    intro h
    rcases List.mem_append.mp h with h1 | h2
    · exact absurd h1 (by decide)
    · exact ten_not_mem_authorLine ts h2
  have hCl : (10 : Nat) ∉ strBytes "committer " ++ authorLine ts := by
    intro h
    rcases List.mem_append.mp h with h1 | h2
    · exact absurd h1 (by decide)
    · exact ten_not_mem_authorLine ts h2
  have hMsplit : splitByte 10 (10 :: (M ++ [10])) = [] :: (splitByte 10 M ++ [[]]) := by
    rw [show (10 : Nat) :: (M ++ [10]) = [] ++ 10 :: (M ++ 10 :: []) from rfl,
      splitByte_append_sep, splitByte_append_sep]
    rfl
  have hlines : splitByte 10 (commitEncode T P M ts) =
      (strBytes "tree " ++ T) ::
        ((if P = [] then [] else [strBytes "parent " ++ P]) ++
          ((strBytes "author " ++ authorLine ts) ::
            (strBytes "committer " ++ authorLine ts) :: [] ::
              (splitByte 10 M ++ [[]]))) := by
    by_cases hP0 : P = []
    · have henc : commitEncode T P M ts =
          (strBytes "tree " ++ T) ++ 10 :: ((strBytes "author " ++ authorLine ts) ++ 10 ::
            ((strBytes "committer " ++ authorLine ts) ++ 10 :: (10 :: (M ++ [10])))) := by
        rw [commitEncode, if_pos hP0]
        simp [List.append_assoc]
      rw [henc, splitByte_header_line _ _ hTl, splitByte_header_line _ _ hAl,
        splitByte_header_line _ _ hCl, hMsplit, if_pos hP0]
      rfl
    · have henc : commitEncode T P M ts =
          (strBytes "tree " ++ T) ++ 10 :: ((strBytes "parent " ++ P) ++ 10 ::
            ((strBytes "author " ++ authorLine ts) ++ 10 ::
              ((strBytes "committer " ++ authorLine ts) ++ 10 :: (10 :: (M ++ [10]))))) := by
        rw [commitEncode, if_neg hP0]
        simp [List.append_assoc]
      rw [henc, splitByte_header_line _ _ hTl, splitByte_header_line _ _ hPl,
        splitByte_header_line _ _ hAl, splitByte_header_line _ _ hCl, hMsplit, if_neg hP0]
      rfl
  have hTne : strBytes "tree " ++ T ≠ [] := append_ne_nil_left _ _ (by decide)
  have hPne : strBytes "parent " ++ P ≠ [] := append_ne_nil_left _ _ (by decide)
  have hAne : strBytes "author " ++ authorLine ts ≠ [] := append_ne_nil_left _ _ (by decide)
  have hCne : strBytes "committer " ++ authorLine ts ≠ [] := append_ne_nil_left _ _ (by decide)
  have hdropT : (strBytes "tree " ++ T).drop 5 = T := by
    rw [show (5 : Nat) = (strBytes "tree ").length from rfl, List.drop_left]
  have hdropP : (strBytes "parent " ++ P).drop 7 = P := by
    rw [show (7 : Nat) = (strBytes "parent ").length from rfl, List.drop_left]
  refine ⟨?_, ?_, ?_⟩
  · show scanTree [] (splitByte 10 (commitEncode T P M ts)) = T
    rw [hlines, scanTree_cons_match _ _ _ (startsWith_append_self _ _), hdropT]
    by_cases hP0 : P = []
    · rw [if_pos hP0, List.nil_append,
        scanTree_cons_skip _ _ _ (startsWith_tree_author _) hAne,
        scanTree_cons_skip _ _ _ (startsWith_tree_committer _) hCne, scanTree_blank]
    · rw [if_neg hP0, List.singleton_append,
        scanTree_cons_skip _ _ _ (startsWith_tree_parent _) hPne,
        scanTree_cons_skip _ _ _ (startsWith_tree_author _) hAne,
        scanTree_cons_skip _ _ _ (startsWith_tree_committer _) hCne, scanTree_blank]
  · show scanParent [] (splitByte 10 (commitEncode T P M ts)) = P
    rw [hlines, scanParent_cons_skip _ _ _ (startsWith_parent_tree _) hTne]
    by_cases hP0 : P = []
    · rw [if_pos hP0, List.nil_append,
        scanParent_cons_skip _ _ _ (startsWith_parent_author _) hAne,
        scanParent_cons_skip _ _ _ (startsWith_parent_committer _) hCne, scanParent_blank, hP0]
    · rw [if_neg hP0, List.singleton_append,
        scanParent_cons_match _ _ _ (startsWith_append_self _ _), hdropP,
        scanParent_cons_skip _ _ _ (startsWith_parent_author _) hAne,
        scanParent_cons_skip _ _ _ (startsWith_parent_committer _) hCne, scanParent_blank]
  · show (match msgLines (splitByte 10 (commitEncode T P M ts)) with
      | some (l :: ls) => some (joinByte 10 (l :: ls))
      | _ => none) = some (M ++ [10])
    have hmsg : msgLines (splitByte 10 (commitEncode T P M ts)) =
        some (splitByte 10 M ++ [[]]) := by
      rw [hlines, msgLines_cons_ne _ _ hTne]
      by_cases hP0 : P = []
      · rw [if_pos hP0, List.nil_append, msgLines_cons_ne _ _ hAne,
          msgLines_cons_ne _ _ hCne, msgLines_blank]
      · rw [if_neg hP0, List.singleton_append, msgLines_cons_ne _ _ hPne,
          msgLines_cons_ne _ _ hAne, msgLines_cons_ne _ _ hCne, msgLines_blank]
    rw [hmsg]
    obtain ⟨l0, ls0, hM0⟩ := splitByte_exists_cons 10 M
    rw [hM0, List.cons_append]
    show some (joinByte 10 (l0 :: (ls0 ++ [[]]))) = some (M ++ [10])
    rw [show l0 :: (ls0 ++ [[]]) = (l0 :: ls0) ++ [[]] from rfl]
    rw [joinByte_append 10 (l0 :: ls0) [[]] (by simp) (by simp)]
    rw [← hM0, joinByte_splitByte]
    rfl

/-- C5 counterexample: at concrete fields the decoded message is the input
message with a trailing newline, so it differs from the input message. -/
theorem C5_counterexample :
    (commitDecode (commitEncode (strBytes "t") [] (strBytes "initial") 0)).message ≠
      some (strBytes "initial") := by
  decide

/-- Witness for C5 at concrete fields with a parent. -/
theorem C5_commit_roundtrip_witness :
    (commitDecode (commitEncode (strBytes "t1") (strBytes "aa") (strBytes "initial") 7)).treeId =
      strBytes "t1" ∧
    (commitDecode (commitEncode (strBytes "t1") (strBytes "aa") (strBytes "initial") 7)).parentId =
      strBytes "aa" ∧
    (commitDecode (commitEncode (strBytes "t1") (strBytes "aa") (strBytes "initial") 7)).message =
      some (strBytes "initial" ++ [10]) :=
  C5_commit_roundtrip (strBytes "t1") (strBytes "aa") (strBytes "initial") 7
    (by decide) (by decide) (by decide)

end Gogit
